import Mathlib

/-!
Verification of `pelican_katex.py`, a Pelican plugin that scans generated
HTML files for LaTeX math markup, renders each occurrence via the external
`katex` tool, and memoizes render results in a JSON-backed cache.

The Python source is shallowly embedded here:
* strings are `List Char`;
* the Python dict `katex_cache` (keyed by `(latex, display_mode)` tuples)
  is an association list with unique keys;
* the external `katex` subprocess is an oracle parameter
  `renderFn : List Char → Bool → List Char` giving the bytes the tool
  writes to stdout (decoded as text); the embedded `katex` function also
  returns the number of subprocess invocations it performed;
* `html.unescape` (Python stdlib, used as-is by the source) is an oracle
  parameter `unesc : List Char → List Char`;
* the PLY lexer (`ply.lex.lex()` over the three token rules) is embedded
  as a left-to-right scanner `scan` that at each position tries the inline
  rule, then the display rule, then falls back to a single-character HTML
  token, exactly as the generated master regex does.
-/

namespace PelicanKatex

/-- Cache keys: the Python tuple `(latex, display_mode)` used to index
`katex_cache` (src/pelican_katex.py line 112 and 126). -/
abbrev Key : Type := List Char × Bool

/-- The in-memory render cache: Python dict `katex_cache` modelled as an
association list whose keys are unique. -/
abbrev Cache : Type := List (Key × List Char)

/-- Python `(latex, display_mode) in katex_cache` /
`katex_cache[latex, display_mode]`: first (only) binding of the key. -/
def cacheLookup (c : Cache) (k : Key) : Option (List Char) :=
  match c with
  | [] => none
  | (k', v) :: rest => if k' = k then some v else cacheLookup rest k

/-- Python `katex_cache[latex, display_mode] = result`: dict assignment.
In `katex` the assignment only happens on a miss, so appending a fresh
binding is exact there; we still overwrite to match dict semantics. -/
def cacheInsert (c : Cache) (k : Key) (v : List Char) : Cache :=
  match c with
  | [] => [(k, v)]
  | (k', v') :: rest =>
      if k' = k then (k', v) :: rest else (k', v') :: cacheInsert rest k v

/-- `katex(latex, display_mode, katex_cache)` (src/pelican_katex.py lines
111-127).  On a hit the cached entry is returned and no subprocess runs.
On a miss the external tool is started, `latex` is written to its stdin,
its whole stdout is read back as `result` (the oracle `renderFn latex
display_mode`), the result is stored in the cache and returned.  The
third component counts subprocess invocations (0 or 1). -/
def katex (renderFn : List Char → Bool → List Char)
    (latex : List Char) (display_mode : Bool) (katex_cache : Cache) :
    List Char × Cache × Nat :=
  match cacheLookup katex_cache (latex, display_mode) with
  | some v => (v, katex_cache, 0)
  | none =>
      let result := renderFn latex display_mode
      (result, cacheInsert katex_cache (latex, display_mode) result, 1)

/-- Key encoding used by `save_cache` (src/pelican_katex.py line 83):
`('1' if display else '0') + key`. -/
def encodeKey (key : List Char) (display : Bool) : List Char :=
  (if display then '1' else '0') :: key

/-- Key decoding used by `load_cache` (src/pelican_katex.py line 74):
`(key[1:], key[0] == '1')`.  Python raises `IndexError` on an empty
key (`key[0]`), modelled by `none`. -/
def decodeKey : List Char → Option (List Char × Bool)
  | [] => none
  | c :: rest => some (rest, c == '1')

section CacheLemmas

theorem cacheLookup_cacheInsert_self (c : Cache) (k : Key) (v : List Char) :
    cacheLookup (cacheInsert c k v) k = some v := by
  induction c with
  | nil => simp [cacheInsert, cacheLookup]
  | cons hd rest ih =>
      obtain ⟨k', v'⟩ := hd
      by_cases h : k' = k <;> simp [cacheInsert, cacheLookup, h, ih]

theorem cacheLookup_cacheInsert_ne (c : Cache) (k k' : Key) (v : List Char)
    (h : k' ≠ k) : cacheLookup (cacheInsert c k v) k' = cacheLookup c k' := by
  induction c with
  | nil => simp [cacheInsert, cacheLookup, Ne.symm h]
  | cons hd rest ih =>
      obtain ⟨k₀, v₀⟩ := hd
      by_cases h0 : k₀ = k
      · subst h0
        simp [cacheInsert, cacheLookup, Ne.symm h]
      · simp only [cacheInsert, if_neg h0]
        by_cases h1 : k₀ = k' <;> simp [cacheLookup, h1, ih]

end CacheLemmas

/-- C2: calling `katex` a second time with the same `(latex, display_mode)`
pair on the cache produced by the first call performs at most one external
render across the two calls, and returns the identical string. -/
theorem katex_cache_determinism (renderFn : List Char → Bool → List Char)
    (latex : List Char) (display_mode : Bool) (c : Cache) :
    (katex renderFn latex display_mode
        (katex renderFn latex display_mode c).2.1).1 =
      (katex renderFn latex display_mode c).1 ∧
    (katex renderFn latex display_mode c).2.2 +
      (katex renderFn latex display_mode
        (katex renderFn latex display_mode c).2.1).2.2 ≤ 1 := by
  unfold katex
  cases h : cacheLookup c (latex, display_mode) with
  | some v => simp [h]
  | none => simp [h, cacheLookup_cacheInsert_self]

theorem decodeKey_encodeKey_eq (key : List Char) (display : Bool) :
    decodeKey (encodeKey key display) = some (key, display) := by
  cases display <;> simp [encodeKey, decodeKey]

/-- C3: decoding an encoded cache key recovers the `(source, displayMode)`
pair exactly, for every source string (split at position 1, no content
inspection). -/
theorem decodeKey_encodeKey (key : List Char) (display : Bool) :
    decodeKey (encodeKey key display) = some (key, display) :=
  decodeKey_encodeKey_eq key display

/-- C10: for every non-empty stored key `c :: rest`, loading decodes it to
source `rest` (the key minus its first character) and display flag
`c = '1'`; in particular any first character other than `'1'`, not only
`'0'`, yields inline mode, as the concrete key "xa" shows. -/
theorem decodeKey_cons_spec :
    (∀ (c : Char) (rest : List Char),
        decodeKey (c :: rest) = some (rest, c == '1')) ∧
    decodeKey ['x', 'a'] = some (['a'], false) := by
  constructor
  · intro c rest; rfl
  · simp [decodeKey]

/-! ### The PLY lexer

`ply.lex.lex()` compiles the three token rules into one master regex
`(?P<t_LATEX_INLINE>...)|(?P<t_LATEX_DISPLAY>...)|(?P<t_HTML>[\S\s])`,
tried with `re.match` at the current position; the first alternative that
matches wins, and the cursor advances past the match.  Function rules come
first in definition order (`t_LATEX_INLINE`, then `t_LATEX_DISPLAY`), the
string rule `t_HTML` last.  Both math regexes have the shape
`TAG \s+ class="math"> ([\S\s]+?) CLOSE` (src lines 21-22): a literal open
tag, one or more whitespace characters, the literal `class="math">`, a
lazy non-empty capture, and the literal close tag.  Since `[\S\s]` matches
every character, `t_error` is unreachable. -/

/-- Python `\s` on the characters the regexes can backtrack over.  (The
character after the whitespace run must be `c` of `class="math">`, which
is not whitespace, so greedy-with-backtracking `\s+` matches exactly the
maximal whitespace run.) -/
def pySpace (c : Char) : Bool :=
  c == ' ' || c == '\t' || c == '\n' || c == '\r' || c == '\x0b' || c == '\x0c'

/-- The lazy group `([\S\s]+?)` followed by the literal `close`: split
`cs` as `inner ++ close ++ after` with the shortest non-empty `inner`. -/
def innerSplit (close : List Char) : List Char → Option (List Char × List Char)
  | [] => none
  | c :: rest =>
      if close.isPrefixOf rest then some ([c], rest.drop close.length)
      else
        match innerSplit close rest with
        | some (inner, after) => some (c :: inner, after)
        | none => none

/-- The opening part `PRE \s+ MID` of a math regex anchored at `cs`:
returns the matched open text and the remainder. -/
def matchOpen (pre mid : List Char) (cs : List Char) :
    Option (List Char × List Char) :=
  if pre.isPrefixOf cs then
    let rest := cs.drop pre.length
    let ws := rest.takeWhile pySpace
    let rest2 := rest.dropWhile pySpace
    if ws ≠ [] ∧ mid.isPrefixOf rest2 then
      some (pre ++ ws ++ mid, rest2.drop mid.length)
    else none
  else none

/-- A whole math rule `PRE \s+ MID ([\S\s]+?) CLOSE` anchored at `cs`:
returns (full matched text, captured inner text, remainder). -/
def matchRule (pre mid close : List Char) (cs : List Char) :
    Option (List Char × List Char × List Char) :=
  match matchOpen pre mid cs with
  | none => none
  | some (o, rest) =>
      match innerSplit close rest with
      | none => none
      | some (inner, after) => some (o ++ inner ++ close, inner, after)

/-- Open tag of `INLINE_LATEX_REGEX` (src line 21). -/
def inlineTag : List Char := "<tt".toList

/-- Open tag of `DISPLAY_LATEX_REGEX` (src line 22). -/
def displayTag : List Char := "<pre".toList

/-- The literal `class="math">` shared by both regexes. -/
def classMath : List Char := "class=\"math\">".toList

/-- Closing delimiter of the inline regex. -/
def inlineClose : List Char := "</tt>".toList

/-- Closing delimiter of the display regex. -/
def displayClose : List Char := "</pre>".toList

/-- A token produced by the lexer: `t_HTML` (one character, src line 60)
or a math token carrying `LatexExpression(display_mode, expression)`
(src lines 29-57); `orig` is the full regex match the token covered. -/
inductive Span where
  | html (c : Char)
  | math (display_mode : Bool) (expression : List Char) (orig : List Char)
deriving DecidableEq, Repr

/-- The document text a span covered: the matched character for `t_HTML`,
the full regex match (delimiters included) for a math token. -/
def origOf : Span → List Char
  | Span.html c => [c]
  | Span.math _ _ orig => orig

/-- One attempt of the master regex at the current position: try
`t_LATEX_INLINE`, then `t_LATEX_DISPLAY` (alternation order = rule
definition order). -/
def tryMath (cs : List Char) : Option (Span × List Char) :=
  match matchRule inlineTag classMath inlineClose cs with
  | some (orig, inner, after) => some (Span.math false inner orig, after)
  | none =>
      match matchRule displayTag classMath displayClose cs with
      | some (orig, inner, after) => some (Span.math true inner orig, after)
      | none => none

theorem innerSplit_append (close : List Char) (cs : List Char) :
    ∀ inner after, innerSplit close cs = some (inner, after) →
      inner ++ close ++ after = cs ∧ inner ≠ [] := by
  induction cs with
  | nil => intro inner after h; simp [innerSplit] at h
  | cons c rest ih =>
      intro inner after h
      unfold innerSplit at h
      by_cases hp : close.isPrefixOf rest
      · rw [if_pos (by exact_mod_cast hp)] at h
        simp only [Option.some.injEq, Prod.mk.injEq] at h
        obtain ⟨h1, h2⟩ := h
        subst h1; subst h2
        refine ⟨?_, by simp⟩
        have hpre : close <+: rest := List.isPrefixOf_iff_prefix.mp hp
        have hre := List.prefix_iff_eq_append.mp hpre
        simpa using congrArg (fun l => c :: l) hre
      · rw [if_neg (by exact_mod_cast hp)] at h
        cases hrec : innerSplit close rest with
        | none => rw [hrec] at h; simp at h
        | some p =>
            obtain ⟨i, a⟩ := p
            rw [hrec] at h
            simp only [Option.some.injEq, Prod.mk.injEq] at h
            obtain ⟨h1, h2⟩ := h
            subst h1; subst h2
            obtain ⟨hi, -⟩ := ih i a hrec
            exact ⟨by simpa using congrArg (fun l => c :: l) hi, by simp⟩

theorem matchOpen_append (pre mid cs o rest : List Char)
    (h : matchOpen pre mid cs = some (o, rest)) :
    o ++ rest = cs ∧ o ≠ [] := by
  unfold matchOpen at h
  by_cases h1 : pre.isPrefixOf cs
  · rw [if_pos (by exact_mod_cast h1)] at h
    simp only at h
    by_cases h2 : (cs.drop pre.length).takeWhile pySpace ≠ [] ∧
        mid.isPrefixOf ((cs.drop pre.length).dropWhile pySpace)
    · rw [if_pos h2] at h
      simp only [Option.some.injEq, Prod.mk.injEq] at h
      obtain ⟨ho, hr⟩ := h
      subst ho; subst hr
      obtain ⟨hws, hmid⟩ := h2
      have hcs : pre ++ cs.drop pre.length = cs := by
        have hpre : pre <+: cs := List.isPrefixOf_iff_prefix.mp h1
        exact List.prefix_iff_eq_append.mp hpre
      have hsplit : (cs.drop pre.length).takeWhile pySpace ++
          (cs.drop pre.length).dropWhile pySpace = cs.drop pre.length :=
        List.takeWhile_append_dropWhile pySpace (cs.drop pre.length)
      have hmid' : mid ++ ((cs.drop pre.length).dropWhile pySpace).drop mid.length
          = (cs.drop pre.length).dropWhile pySpace :=
        List.prefix_iff_eq_append.mp ( List.isPrefixOf_iff_prefix.mp hmid)
      constructor
      · calc pre ++ (cs.drop pre.length).takeWhile pySpace ++ mid ++
              ((cs.drop pre.length).dropWhile pySpace).drop mid.length
            = pre ++ ((cs.drop pre.length).takeWhile pySpace ++
              (mid ++ ((cs.drop pre.length).dropWhile pySpace).drop mid.length)) := by
              simp [List.append_assoc]
          _ = pre ++ ((cs.drop pre.length).takeWhile pySpace ++
              (cs.drop pre.length).dropWhile pySpace) := by rw [hmid']
          _ = pre ++ cs.drop pre.length := by rw [hsplit]
          _ = cs := hcs
      · intro hnil
        rcases List.append_eq_nil.mp hnil with ⟨hnil', -⟩
        rcases List.append_eq_nil.mp hnil' with ⟨-, hws'⟩
        exact hws hws'
    · rw [if_neg h2] at h; simp at h
  · rw [if_neg (by exact_mod_cast h1)] at h; simp at h

theorem matchRule_append (pre mid close cs orig inner after : List Char)
    (h : matchRule pre mid close cs = some (orig, inner, after)) :
    orig ++ after = cs ∧ orig ≠ [] := by
  unfold matchRule at h
  split at h
  · simp at h
  next o rest ho =>
    split at h
    · simp at h
    next i a hi =>
      simp only [Option.some.injEq, Prod.mk.injEq] at h
      obtain ⟨h1, h2, h3⟩ := h
      subst h1; subst h2; subst h3
      obtain ⟨ho1, ho2⟩ := matchOpen_append pre mid cs o rest ho
      obtain ⟨hi1, -⟩ := innerSplit_append close rest i a hi
      constructor
      · calc o ++ i ++ close ++ a
            = o ++ (i ++ close ++ a) := by simp [List.append_assoc]
          _ = o ++ rest := by rw [hi1]
          _ = cs := ho1
      · intro hnil
        rcases List.append_eq_nil.mp hnil with ⟨hnil', -⟩
        rcases List.append_eq_nil.mp hnil' with ⟨hnil'', -⟩
        exact ho2 hnil''

theorem tryMath_spec (cs : List Char) (sp : Span) (after : List Char)
    (h : tryMath cs = some (sp, after)) :
    origOf sp ++ after = cs ∧ after.length < cs.length := by
  have key : ∀ pre mid close orig inner,
      matchRule pre mid close cs = some (orig, inner, after) →
      orig ++ after = cs ∧ after.length < cs.length := by
    intro pre mid close orig inner hm
    obtain ⟨he, hne⟩ := matchRule_append pre mid close cs orig inner after hm
    refine ⟨he, ?_⟩
    have : cs.length = orig.length + after.length := by
      rw [← he]; simp
    have hpos : 0 < orig.length := List.length_pos.mpr hne
    omega
  unfold tryMath at h
  cases h1 : matchRule inlineTag classMath inlineClose cs with
  | some p =>
      obtain ⟨orig, inner, aft⟩ := p
      rw [h1] at h
      simp only [Option.some.injEq, Prod.mk.injEq] at h
      obtain ⟨hsp, haft⟩ := h
      subst hsp; subst haft
      exact key _ _ _ _ _ h1
  | none =>
      rw [h1] at h
      cases h2 : matchRule displayTag classMath displayClose cs with
      | some p =>
          obtain ⟨orig, inner, aft⟩ := p
          rw [h2] at h
          simp only [Option.some.injEq, Prod.mk.injEq] at h
          obtain ⟨hsp, haft⟩ := h
          subst hsp; subst haft
          exact key _ _ _ _ _ h2
      | none => rw [h2] at h; simp at h

/-- The lexer loop (`lexer.input(content)` / repeated `lexer.token()`,
src lines 131-135): at each position the master regex is tried; on a math
match the whole matched region becomes one token, otherwise one character
becomes a `t_HTML` token. -/
def scan (cs : List Char) : List Span :=
  match cs with
  | [] => []
  | c :: rest =>
      match h : tryMath (c :: rest) with
      | some (sp, after) => sp :: scan after
      | none => Span.html c :: scan rest
termination_by cs.length
decreasing_by
  · exact (tryMath_spec _ _ _ h).2
  · simp

/-- Concatenation of the document text covered by a token sequence:
literal characters of `t_HTML` tokens and the full original regex match
of math tokens, in order. -/
def spansText : List Span → List Char
  | [] => []
  | sp :: rest => origOf sp ++ spansText rest

/-- C1: the scanner's token sequence losslessly partitions the document:
concatenating each `t_HTML` token's character and each math token's full
original matched text (delimiters included), in order, reproduces the
input exactly, with no gaps or overlaps. -/
theorem scan_lossless (cs : List Char) : spansText (scan cs) = cs := by
  induction cs using scan.induct with
  | case1 => rw [scan.eq_def]; rfl
  | case2 c rest sp after h ih =>
      rw [scan.eq_def]
      dsimp only
      split
      next sp' after' h' =>
        rw [h] at h'
        injection h' with hpair
        injection hpair with h1 h2
        subst h1; subst h2
        simp only [spansText]
        rw [ih]
        exact (tryMath_spec _ _ _ h).1
      next h' => rw [h] at h'; simp at h'
  | case3 c rest h ih =>
      rw [scan.eq_def]
      dsimp only
      split
      next sp' after' h' => rw [h] at h'; simp at h'
      next h' =>
        simp only [spansText, origOf]
        simpa using ih

/-! ### Cache persistence

`save_cache` (src lines 81-86) serializes the dict as one JSON object whose
keys are `('1' if display else '0') + key` and whose values are the
rendered strings, with `sort_keys=True` (Python string order = code-point
lexicographic).  `load_cache` (src lines 71-78) reads the object back and
rebuilds the dict key `(key[1:], key[0] == '1')` per stored entry.  The
persisted JSON object is modelled as its ordered list of
(string key, string value) items. -/

/-- Code-point lexicographic order on strings, as Python `<` on `str`
(the order `json.dump(..., sort_keys=True)` writes keys in). -/
def charsLE : List Char → List Char → Bool
  | [], _ => true
  | _ :: _, [] => false
  | a :: as, b :: bs =>
      if a < b then true else if b < a then false else charsLE as bs

/-- One dict entry as `save_cache` writes it. -/
def encEntry (e : Key × List Char) : List Char × List Char :=
  (encodeKey e.1.1 e.1.2, e.2)

/-- `save_cache(katex_cache)`: encode every entry and emit the JSON
object with keys in sorted order. -/
def save_cache (katex_cache : Cache) : List (List Char × List Char) :=
  (katex_cache.map encEntry).mergeSort (fun e1 e2 => charsLE e1.1 e2.1)

/-- The dict comprehension of `load_cache`, left to right over the JSON
items, later bindings overwriting earlier ones; `none` models the
`IndexError` Python raises on `key[0]` for an empty stored key. -/
def load_cache_go (acc : Cache) : List (List Char × List Char) → Option Cache
  | [] => some acc
  | (k, v) :: rest =>
      match decodeKey k with
      | none => none
      | some (src, disp) => load_cache_go (cacheInsert acc (src, disp) v) rest

/-- `load_cache()` applied to the parsed JSON items. -/
def load_cache (stored : List (List Char × List Char)) : Option Cache :=
  load_cache_go [] stored

/-- Decoding one stored entry (junk default on the empty key, which
`load_cache_go` never reaches). -/
def decEntry (e : List Char × List Char) : Key × List Char :=
  match decodeKey e.1 with
  | some (s, d) => ((s, d), e.2)
  | none => (([], false), e.2)

theorem decEntry_encEntry (e : Key × List Char) : decEntry (encEntry e) = e := by
  obtain ⟨⟨s, d⟩, v⟩ := e
  cases d <;> rfl

theorem cacheLookup_eq_none (p : Cache) (k : Key)
    (h : k ∉ p.map Prod.fst) : cacheLookup p k = none := by
  induction p with
  | nil => rfl
  | cons e rest ih =>
      obtain ⟨k0, v0⟩ := e
      simp only [List.map_cons, List.mem_cons] at h
      push_neg at h
      simp only [cacheLookup, if_neg (Ne.symm h.1)]
      exact ih h.2

theorem cacheLookup_foldl_insert (p : List (Key × List Char)) :
    ∀ (acc : Cache) (k : Key), (p.map Prod.fst).Nodup →
      cacheLookup (p.foldl (fun a e => cacheInsert a e.1 e.2) acc) k =
        (cacheLookup p k).or (cacheLookup acc k) := by
  induction p with
  | nil => intro acc k _; simp [cacheLookup]
  | cons e rest ih =>
      intro acc k hnd
      obtain ⟨k0, v0⟩ := e
      simp only [List.map_cons, List.nodup_cons] at hnd
      obtain ⟨hk0, hrest⟩ := hnd
      simp only [List.foldl_cons]
      rw [ih _ k hrest]
      by_cases hk : k0 = k
      · subst hk
        rw [cacheLookup_eq_none rest k0 hk0, cacheLookup_cacheInsert_self]
        simp [cacheLookup, Option.or]
      · simp only [cacheLookup, if_neg hk]
        rw [cacheLookup_cacheInsert_ne _ _ _ _ (Ne.symm hk)]

theorem cacheLookup_perm {p c : Cache} (hp : p.Perm c) :
    (c.map Prod.fst).Nodup → ∀ k, cacheLookup p k = cacheLookup c k := by
  induction hp with
  | nil => intro _ k; rfl
  | cons x hperm ih =>
      intro hnd k
      obtain ⟨kx, vx⟩ := x
      simp only [List.map_cons, List.nodup_cons] at hnd
      simp only [cacheLookup]
      by_cases hk : kx = k
      · simp [hk]
      · simp only [if_neg hk]
        exact ih hnd.2 k
  | swap x y l =>
      intro hnd k
      obtain ⟨kx, vx⟩ := x
      obtain ⟨ky, vy⟩ := y
      simp only [List.map_cons, List.nodup_cons, List.mem_cons] at hnd
      have hxy : kx ≠ ky := by
        intro hcon
        exact hnd.1 (Or.inl hcon)
      simp only [cacheLookup]
      by_cases h1 : ky = k <;> by_cases h2 : kx = k <;>
        simp [h1, h2]
      exact absurd (h2.trans h1.symm) hxy
  | trans h12 h23 ih12 ih23 =>
      intro hnd k
      have hnd2 : _ := ((h23.map Prod.fst).nodup_iff).mpr hnd
      rw [ih12 hnd2 k, ih23 hnd k]

theorem load_cache_go_encoded (l : List (Key × List Char)) :
    ∀ acc : Cache, load_cache_go acc (l.map encEntry) =
      some (l.foldl (fun a e => cacheInsert a e.1 e.2) acc) := by
  induction l with
  | nil => intro acc; rfl
  | cons e rest ih =>
      intro acc
      obtain ⟨⟨src, disp⟩, v⟩ := e
      simp only [List.map_cons, encEntry, load_cache_go, List.foldl_cons]
      rw [decodeKey_encodeKey_eq]
      exact ih _

/-- C4: persisting a cache with `save_cache` and loading it back with
`load_cache` yields an equivalent mapping — every `(source, displayMode)`
key is bound to the same rendered value — and this holds for the cache
built in any insertion order (any permutation `c₂` of `c`). -/
theorem save_cache_load_cache_roundtrip (c c₂ : Cache) (hperm : c₂.Perm c)
    (hnd : (c.map Prod.fst).Nodup) :
    ∃ c', load_cache (save_cache c₂) = some c' ∧
      ∀ k, cacheLookup c' k = cacheLookup c k := by
  classical
  set saved := save_cache c₂ with hsaved
  have hperm_enc : saved.Perm (c₂.map encEntry) :=
    List.mergeSort_perm (c₂.map encEntry) _
  have hmem : ∀ e ∈ saved, encEntry (decEntry e) = e := by
    intro e he
    have : e ∈ c₂.map encEntry := hperm_enc.mem_iff.mp he
    obtain ⟨x, -, hx⟩ := List.mem_map.mp this
    rw [← hx, decEntry_encEntry]
  have henc : (saved.map decEntry).map encEntry = saved := by
    rw [List.map_map]
    calc saved.map (encEntry ∘ decEntry) = saved.map id :=
          List.map_congr_left (fun e he => hmem e he)
      _ = saved := List.map_id saved
  have hc2 : (c₂.map encEntry).map decEntry = c₂ := by
    rw [List.map_map]
    calc c₂.map (decEntry ∘ encEntry) = c₂.map id :=
          List.map_congr_left (fun e _ => decEntry_encEntry e)
      _ = c₂ := List.map_id c₂
  have hp_perm : (saved.map decEntry).Perm c := by
    have hp2 := hperm_enc.map decEntry
    rw [hc2] at hp2
    exact hp2.trans hperm
  refine ⟨(saved.map decEntry).foldl (fun a e => cacheInsert a e.1 e.2) [], ?_, ?_⟩
  · unfold load_cache
    conv_lhs => rw [← henc]
    exact load_cache_go_encoded _ []
  · intro k
    have hndp : ((saved.map decEntry).map Prod.fst).Nodup :=
      ((hp_perm.map Prod.fst).nodup_iff).mpr hnd
    rw [cacheLookup_foldl_insert _ [] k hndp]
    simp only [cacheLookup, Option.or_none]
    exact cacheLookup_perm hp_perm hnd k

/-! ### The file pipeline

`write_output` (src lines 130-142) walks the token stream: `t_HTML`
tokens are written verbatim; for a math token the *entity-decoded*
expression `html.unescape(tok.value.expression)` and the display flag are
passed to `katex`, and the render result is written.  `process_file`
(src lines 145-153) reads a file, returns early if the content is empty,
and otherwise overwrites the file with `write_output`'s product.
`process_files` (src lines 89-108) loads the cache once, processes every
eligible file, and saves the cache once.  `write_spans` is the token loop
run on an explicit token list; it returns the text written, the final
cache, and the number of external render invocations. -/

/-- The token loop of `write_output` over a token list, threading the
cache; the `Nat` counts external `katex` subprocess invocations. -/
def write_spans (unesc : List Char → List Char)
    (renderFn : List Char → Bool → List Char) :
    List Span → Cache → List Char × Cache × Nat
  | [], c => ([], c, 0)
  | Span.html ch :: rest, c =>
      let r := write_spans unesc renderFn rest c
      (ch :: r.1, r.2.1, r.2.2)
  | Span.math d expr _ :: rest, c =>
      let k := katex renderFn (unesc expr) d c
      let r := write_spans unesc renderFn rest k.2.1
      (k.1 ++ r.1, r.2.1, k.2.2 + r.2.2)

/-- `write_output(content, katex_cache, output_file)`: lex the content and
run the token loop. -/
def write_output (unesc : List Char → List Char)
    (renderFn : List Char → Bool → List Char)
    (content : List Char) (katex_cache : Cache) : List Char × Cache × Nat :=
  write_spans unesc renderFn (scan content) katex_cache

/-- `process_file(filename, katex_cache)` on the file's content: `none`
means the file is not rewritten (the empty-content early return at src
lines 149-150, before the file is reopened for writing). -/
def process_file (unesc : List Char → List Char)
    (renderFn : List Char → Bool → List Char)
    (content : List Char) (katex_cache : Cache) :
    Option (List Char) × Cache × Nat :=
  if content = [] then (none, katex_cache, 0)
  else
    let r := write_output unesc renderFn content katex_cache
    (some r.1, r.2.1, r.2.2)

/-- The file loop of `process_files` over the contents of the eligible
files, threading one cache through the whole run. -/
def process_run (unesc : List Char → List Char)
    (renderFn : List Char → Bool → List Char) :
    List (List Char) → Cache → List (Option (List Char)) × Cache × Nat
  | [], c => ([], c, 0)
  | f :: fs, c =>
      let r := process_file unesc renderFn f c
      let rs := process_run unesc renderFn fs r.2.1
      (r.1 :: rs.1, rs.2.1, r.2.2 + rs.2.2)

/-- C9: a file whose content is empty short-circuits: it is not rewritten
(`none`), the cache is returned untouched, and no external render is
performed. -/
theorem process_file_empty (unesc : List Char → List Char)
    (renderFn : List Char → Bool → List Char) (katex_cache : Cache) :
    process_file unesc renderFn [] katex_cache = (none, katex_cache, 0) := by
  simp [process_file]

section RunInvariant

variable (unesc : List Char → List Char)
variable (renderFn : List Char → Bool → List Char)

theorem katex_monotone (latex : List Char) (d : Bool) (c : Cache)
    (k : Key) (v : List Char) (h : cacheLookup c k = some v) :
    cacheLookup (katex renderFn latex d c).2.1 k = some v := by
  unfold katex
  cases hm : cacheLookup c (latex, d) with
  | some w => simpa using h
  | none =>
      simp only
      by_cases hk : k = (latex, d)
      · subst hk; rw [h] at hm; exact absurd hm (by simp)
      · rw [cacheLookup_cacheInsert_ne _ _ _ _ hk]
        exact h

theorem katex_provenance (latex : List Char) (d : Bool) (c : Cache)
    (k : Key) (v : List Char)
    (h : cacheLookup (katex renderFn latex d c).2.1 k = some v) :
    cacheLookup c k = some v ∨ v = renderFn k.1 k.2 := by
  unfold katex at h
  cases hm : cacheLookup c (latex, d) with
  | some w => rw [hm] at h; exact Or.inl h
  | none =>
      rw [hm] at h
      simp only at h
      by_cases hk : k = (latex, d)
      · subst hk
        rw [cacheLookup_cacheInsert_self] at h
        right
        simpa using h.symm
      · rw [cacheLookup_cacheInsert_ne _ _ _ _ hk] at h
        exact Or.inl h

theorem write_spans_monotone (spans : List Span) :
    ∀ (c : Cache) (k : Key) (v : List Char), cacheLookup c k = some v →
      cacheLookup (write_spans unesc renderFn spans c).2.1 k = some v := by
  induction spans with
  | nil => intro c k v h; simpa [write_spans] using h
  | cons sp rest ih =>
      intro c k v h
      cases sp with
      | html ch => simpa [write_spans] using ih c k v h
      | math d expr orig =>
          simp only [write_spans]
          exact ih _ k v (katex_monotone renderFn (unesc expr) d c k v h)

theorem write_spans_provenance (spans : List Span) :
    ∀ (c : Cache) (k : Key) (v : List Char),
      cacheLookup (write_spans unesc renderFn spans c).2.1 k = some v →
      cacheLookup c k = some v ∨ v = renderFn k.1 k.2 := by
  induction spans with
  | nil => intro c k v h; exact Or.inl (by simpa [write_spans] using h)
  | cons sp rest ih =>
      intro c k v h
      cases sp with
      | html ch =>
          simp only [write_spans] at h
          exact ih c k v h
      | math d expr orig =>
          simp only [write_spans] at h
          cases ih _ k v h with
          | inl h' => exact katex_provenance renderFn (unesc expr) d c k v h'
          | inr h' => exact Or.inr h'

theorem process_run_monotone (files : List (List Char)) :
    ∀ (c : Cache) (k : Key) (v : List Char), cacheLookup c k = some v →
      cacheLookup (process_run unesc renderFn files c).2.1 k = some v := by
  induction files with
  | nil => intro c k v h; simpa [process_run] using h
  | cons f fs ih =>
      intro c k v h
      simp only [process_run]
      apply ih
      unfold process_file
      by_cases hf : f = []
      · simpa [hf] using h
      · simp only [if_neg hf]
        exact write_spans_monotone unesc renderFn (scan f) c k v h

theorem process_run_provenance (files : List (List Char)) :
    ∀ (c : Cache) (k : Key) (v : List Char),
      cacheLookup (process_run unesc renderFn files c).2.1 k = some v →
      cacheLookup c k = some v ∨ v = renderFn k.1 k.2 := by
  induction files with
  | nil => intro c k v h; exact Or.inl (by simpa [process_run] using h)
  | cons f fs ih =>
      intro c k v h
      simp only [process_run] at h
      cases ih _ k v h with
      | inr h' => exact Or.inr h'
      | inl h' =>
          unfold process_file at h'
          by_cases hf : f = []
          · rw [if_pos hf] at h'; exact Or.inl h'
          · rw [if_neg hf] at h'
            exact write_spans_provenance unesc renderFn (scan f) c k v h'

end RunInvariant

/-- C7: over a whole processing run the cache grows monotonically — every
key present (with its value) at load is still present, unchanged, after
the run — and every key present after the run was either present at load
or carries exactly the external renderer's output for that
`(source, displayMode)` pair (it was successfully rendered during the
run). -/
theorem process_run_cache_invariant (unesc : List Char → List Char)
    (renderFn : List Char → Bool → List Char)
    (files : List (List Char)) (c0 : Cache) :
    (∀ k v, cacheLookup c0 k = some v →
      cacheLookup (process_run unesc renderFn files c0).2.1 k = some v) ∧
    (∀ k v, cacheLookup (process_run unesc renderFn files c0).2.1 k = some v →
      cacheLookup c0 k = some v ∨ v = renderFn k.1 k.2) :=
  ⟨fun k v h => process_run_monotone unesc renderFn files c0 k v h,
   fun k v h => process_run_provenance unesc renderFn files c0 k v h⟩

/-- Witness for C7 at a concrete run: one preloaded entry survives an
empty run, and a key found after a one-file run over a pure-HTML document
must come from the initial cache. -/
theorem process_run_cache_invariant_witness :
    cacheLookup (process_run (fun s => s) (fun s _ => 'R' :: s) []
        [((['a'], false), ['r'])]).2.1 (['a'], false) = some ['r'] :=
  (process_run_cache_invariant (fun s => s) (fun s _ => 'R' :: s) []
    [((['a'], false), ['r'])]).1 (['a'], false) ['r'] (by decide)

/-- Witness for C4: a two-entry cache saved from its reversed insertion
order loads back to the same mapping. -/
theorem save_cache_load_cache_roundtrip_witness :
    ([((['b'], true), ['v']), ((['a'], false), ['u'])] : Cache).Perm
        [((['a'], false), ['u']), ((['b'], true), ['v'])] ∧
    ∃ c', load_cache (save_cache
        [((['b'], true), ['v']), ((['a'], false), ['u'])]) = some c' ∧
      ∀ k, cacheLookup c' k =
        cacheLookup [((['a'], false), ['u']), ((['b'], true), ['v'])] k :=
  ⟨by decide,
   save_cache_load_cache_roundtrip
     [((['a'], false), ['u']), ((['b'], true), ['v'])]
     [((['b'], true), ['v']), ((['a'], false), ['u'])]
     (by decide) (by decide)⟩

/-- C5 counterexample: when the external tool's stdout closes with no
output, `katex` raises nothing: it returns the empty string, caches it
under the requested key, and the token loop emits that empty string into
the document. -/
theorem katex_no_output_counterexample :
    (katex (fun _ _ => []) ['x'] false []).1 = [] ∧
    cacheLookup (katex (fun _ _ => []) ['x'] false []).2.1
      (['x'], false) = some [] ∧
    (write_spans (fun s => s) (fun _ _ => [])
      [Span.math false ['x'] ['x']] []).1 = [] := by
  decide

/-- C5 (amended): if the external tool starts but produces no output
before its stdout closes (`renderFn latex d = []`) and the pair is not
already cached, the render operation does not fail: `katex` returns the
empty string and stores it in the cache, so the caller silently emits
empty output. -/
theorem katex_empty_result (renderFn : List Char → Bool → List Char)
    (latex : List Char) (d : Bool) (c : Cache)
    (hout : renderFn latex d = [])
    (hmiss : cacheLookup c (latex, d) = none) :
    (katex renderFn latex d c).1 = [] ∧
    cacheLookup (katex renderFn latex d c).2.1 (latex, d) = some [] := by
  unfold katex
  rw [hmiss]
  simp [hout, cacheLookup_cacheInsert_self]

/-- Witness for C5 (amended) at a concrete no-output renderer. -/
theorem katex_empty_result_witness :
    ((fun (_ : List Char) (_ : Bool) => ([] : List Char)) ['y'] true = []) ∧
    (cacheLookup ([] : Cache) (['y'], true) = none) ∧
    (katex (fun _ _ => []) ['y'] true []).1 = [] ∧
    cacheLookup (katex (fun _ _ => []) ['y'] true []).2.1
      (['y'], true) = some [] :=
  ⟨rfl, rfl,
   (katex_empty_result (fun _ _ => []) ['y'] true [] rfl rfl).1,
   (katex_empty_result (fun _ _ => []) ['y'] true [] rfl rfl).2⟩

/-! ### Entity decoding and the cache key (C8) -/

/-- A concrete instance of the `html.unescape` oracle, used to evaluate
theorems on inputs where decoding is not the identity: it decodes the
entity `&amp;` to `&` (the stdlib's documented behavior for this entity)
and leaves all other text unchanged. -/
def unescAmp : List Char → List Char
  | '&' :: 'a' :: 'm' :: 'p' :: ';' :: rest => '&' :: unescAmp rest
  | c :: rest => c :: unescAmp rest
  | [] => []

/-- C8 counterexample: for the math span whose source appeared in the
document as `a &amp; b`, the render result is not stored under that
as-found source; the cache key is the entity-decoded `a & b`. -/
theorem write_spans_key_counterexample :
    cacheLookup (write_spans unescAmp (fun s _ => 'R' :: s)
        [Span.math false ['a', ' ', '&', 'a', 'm', 'p', ';', ' ', 'b']
          ['x']] []).2.1
      (['a', ' ', '&', 'a', 'm', 'p', ';', ' ', 'b'], false) = none ∧
    cacheLookup (write_spans unescAmp (fun s _ => 'R' :: s)
        [Span.math false ['a', ' ', '&', 'a', 'm', 'p', ';', ' ', 'b']
          ['x']] []).2.1
      (['a', ' ', '&', ' ', 'b'], false) =
        some ('R' :: ['a', ' ', '&', ' ', 'b']) := by
  decide

/-- C8 (amended): the cache key under which a math span's render result
is stored and looked up is the HTML-entity-decoded LaTeX source — the
same decoded text that is sent to the renderer — not the source as it
appeared in the document: `write_output` decodes the captured expression
before calling `katex`, which uses the decoded text both as the cache key
and as the renderer input. -/
theorem write_spans_decoded_key (unesc : List Char → List Char)
    (renderFn : List Char → Bool → List Char) (d : Bool)
    (expr orig : List Char) (rest : List Span) (c : Cache)
    (hmiss : cacheLookup c (unesc expr, d) = none) :
    cacheLookup
        (write_spans unesc renderFn (Span.math d expr orig :: rest) c).2.1
        (unesc expr, d) = some (renderFn (unesc expr) d) := by
  simp only [write_spans]
  apply write_spans_monotone
  unfold katex
  rw [hmiss]
  simp [cacheLookup_cacheInsert_self]

/-- Witness for C8 (amended): the span captured as `&amp;` is cached
under the decoded key `&`. -/
theorem write_spans_decoded_key_witness :
    cacheLookup ([] : Cache) (unescAmp ['&', 'a', 'm', 'p', ';'], false) = none ∧
    cacheLookup
        (write_spans unescAmp (fun s _ => 'R' :: s)
          [Span.math false ['&', 'a', 'm', 'p', ';'] ['x']] []).2.1
        (unescAmp ['&', 'a', 'm', 'p', ';'], false) =
      some ((fun s _ => 'R' :: s) (unescAmp ['&', 'a', 'm', 'p', ';']) false) :=
  ⟨rfl, write_spans_decoded_key unescAmp (fun s _ => 'R' :: s) false
    ['&', 'a', 'm', 'p', ';'] ['x'] [] [] rfl⟩

/-! ### Capture-group fragility (C6)

PLY presets `t.value` to the raw matched string before calling a token
function.  `t_LATEX_INLINE` overwrites it with
`LatexExpression(False, groups[1])` only when `len(groups) > 1`, and
`t_LATEX_DISPLAY` with `LatexExpression(True, groups[3])` only when
`len(groups) > 3` (src lines 42-57), where `groups` is the whole master
regex's 0-indexed group tuple: inline outer group, the inline pattern's
own groups, display outer group, the display pattern's own groups, HTML
outer group.  A group that did not participate is `None`.  `write_output`
then evaluates `tok.value.expression` and `html.unescape(...)` on
whatever value is left (src lines 138-142). -/

/-- A math token's `t.value` after its token function ran: either still
the raw matched string, or a `LatexExpression` whose `expression` field
may be Python `None`. -/
inductive TokValue where
  | raw (s : List Char)
  | expr (display_mode : Bool) (expression : Option (List Char))
deriving DecidableEq, Repr

/-- The Python exception `write_output` dies with on a malformed token
value. -/
inductive PyError where
  | attributeError
  | typeError
deriving DecidableEq, Repr

/-- `lexer.lexmatch.groups()` when the inline rule matched text `m` and
the inline pattern's own capture groups took the values `gs`: the display
rule's outer group, its `displayGroupCount` inner groups, and the HTML
rule's outer group did not participate. -/
def groupsOnInlineMatch (displayGroupCount : Nat) (m : List Char)
    (gs : List (Option (List Char))) : List (Option (List Char)) :=
  (some m :: gs) ++ List.replicate (1 + displayGroupCount) none ++ [none]

/-- `t_LATEX_INLINE` (src lines 42-48): overwrite the raw value with
`LatexExpression(False, groups[1])` when `len(groups) > 1`. -/
def t_LATEX_INLINE_value (m : List Char)
    (groups : List (Option (List Char))) : TokValue :=
  if 1 < groups.length then TokValue.expr false (groups.getD 1 none)
  else TokValue.raw m

/-- `t_LATEX_DISPLAY` (src lines 51-57): overwrite the raw value with
`LatexExpression(True, groups[3])` when `len(groups) > 3`. -/
def t_LATEX_DISPLAY_value (m : List Char)
    (groups : List (Option (List Char))) : TokValue :=
  if 3 < groups.length then TokValue.expr true (groups.getD 3 none)
  else TokValue.raw m

/-- The math branch of `write_output` (src lines 138-142) on a token
value: `tok.value.expression` on a raw string raises `AttributeError`;
`html.unescape(None)` raises `TypeError`; otherwise the decoded
expression is rendered through the cache. -/
def writeMathToken (unesc : List Char → List Char)
    (renderFn : List Char → Bool → List Char) (v : TokValue) (c : Cache) :
    Except PyError (List Char × Cache) :=
  match v with
  | TokValue.raw _ => Except.error PyError.attributeError
  | TokValue.expr _ none => Except.error PyError.typeError
  | TokValue.expr d (some e) =>
      Except.ok ((katex renderFn (unesc e) d c).1,
                 (katex renderFn (unesc e) d c).2.1)

/-- C6: when a math rule's pattern matches but the expected capture group
is absent, processing crashes instead of falling back to literal
classification.  With an inline pattern that has no capture group of its
own (the display pattern keeping its one group), index 1 lands on the
display rule's non-participating outer group: the guard passes, the
expression becomes `None`, and the write loop raises `TypeError`.  With
both patterns capture-free the display guard `len(groups) > 3` fails, the
raw string stays in `t.value`, and the write loop raises
`AttributeError`.  Neither region is emitted as literal text. -/
theorem capture_group_absent_crashes :
    t_LATEX_INLINE_value ['$', '$', 'x', '$', '$']
        (groupsOnInlineMatch 1 ['$', '$', 'x', '$', '$'] []) =
      TokValue.expr false none ∧
    writeMathToken (fun s => s) (fun s _ => s)
        (t_LATEX_INLINE_value ['$', '$', 'x', '$', '$']
          (groupsOnInlineMatch 1 ['$', '$', 'x', '$', '$'] [])) [] =
      Except.error PyError.typeError ∧
    t_LATEX_DISPLAY_value ['$', '$', 'x', '$', '$']
        [none, some ['$', '$', 'x', '$', '$'], none] =
      TokValue.raw ['$', '$', 'x', '$', '$'] ∧
    writeMathToken (fun s => s) (fun s _ => s)
        (t_LATEX_DISPLAY_value ['$', '$', 'x', '$', '$']
          [none, some ['$', '$', 'x', '$', '$'], none]) [] =
      Except.error PyError.attributeError :=
  ⟨rfl, rfl, rfl, rfl⟩

end PelicanKatex
